import Mathlib

/-!
Shallow embedding of the retrieval core of the offline Wikipedia reader
(`src/main.py`): index-line parsing, offset-map construction, predicate
search over the index, and chunk-based article loading.

Python strings are modelled as `List Char` (sequences of code points),
Python ints as `Int`, file bytes as `List Nat`, Python dictionaries as
association lists with in-place-overwrite insertion, and raised
exceptions as `Option`/`Except` failures.
-/

set_option maxHeartbeats 1000000

namespace PyWiki

/-! ## Python primitive semantics -/

/-- Normalise a Python slice endpoint for a sequence of length `n`:
a negative endpoint counts from the end, and endpoints are clamped to
`[0, n]`. -/
def pyNorm (n : Nat) (i : Int) : Nat :=
  min (if i < 0 then i + n else i).toNat n

/-- Python slice `l[a:b]`. -/
def pySlice (l : List Char) (a b : Int) : List Char :=
  (l.take (pyNorm l.length b)).drop (pyNorm l.length a)

/-- Python slice `l[a:]`. -/
def pySliceFrom (l : List Char) (a : Int) : List Char :=
  l.drop (pyNorm l.length a)

/-- Index of the first occurrence of `c` in `l`, if any. -/
def charIndex : List Char → Char → Option Nat
  | [], _ => none
  | x :: rest, c => if x = c then some 0 else (charIndex rest c).map (· + 1)

/-- Python `str.find`: first index of `c`, or `-1` when `c` does not occur. -/
def pyFind (l : List Char) (c : Char) : Int :=
  match charIndex l c with
  | some i => (i : Int)
  | none => -1

/-- The ASCII whitespace characters stripped by Python's `int()`
(Python additionally strips some unicode whitespace, which this
ASCII-fragment model leaves out). -/
def isPySpace (c : Char) : Bool :=
  c == ' ' || c == '\t' || c == '\n' || c == '\r' || c == '\x0b' || c == '\x0c'

/-- Strip leading and trailing whitespace, as Python's `int()` does. -/
def stripPyWS (l : List Char) : List Char :=
  ((l.dropWhile isPySpace).reverse.dropWhile isPySpace).reverse

/-- True when the list has a first element and it is an ASCII digit. -/
def headIsDigit : List Char → Bool
  | [] => false
  | c :: _ => c.isDigit

/-- No two consecutive underscores occur in the list. -/
def noDoubleUnd : List Char → Bool
  | [] => true
  | [_] => true
  | c1 :: c2 :: rest => !(c1 == '_' && c2 == '_') && noDoubleUnd (c2 :: rest)

/-- A valid Python integer-literal digit sequence: nonempty, made of ASCII
digits and underscores, beginning and ending with a digit, with no two
consecutive underscores (underscores may only separate digits). -/
def validDigitsUnd (l : List Char) : Bool :=
  !l.isEmpty && headIsDigit l && headIsDigit l.reverse &&
    l.all (fun c => c.isDigit || c == '_') && noDoubleUnd l

/-- Numeric value of a digit sequence, ignoring underscore separators. -/
def digitsVal (l : List Char) : Nat :=
  (l.filter (fun c => c != '_')).foldl (fun acc c => 10 * acc + (c.toNat - 48)) 0

/-- The sign-and-digits part of Python `int()` after whitespace stripping:
an optional single leading sign followed by a valid digit sequence. -/
def pyIntCore : List Char → Option Int
  | [] => none
  | c :: rest =>
    if c = '+' then (if validDigitsUnd rest then some (digitsVal rest : Int) else none)
    else if c = '-' then (if validDigitsUnd rest then some (-(digitsVal rest : Int)) else none)
    else (if validDigitsUnd (c :: rest) then some (digitsVal (c :: rest) : Int) else none)

/-- Python `int(s)` on a string: strips surrounding whitespace, accepts an
optional sign followed by ASCII digits with single underscore separators;
`none` models the `ValueError` raised on any other input. (Python's
acceptance of non-ASCII digits is outside this ASCII-fragment model.) -/
def pyInt (l : List Char) : Option Int :=
  pyIntCore (stripPyWS l)

/-- Python `str.lower`, modelled characterwise on the ASCII fragment via
`Char.toLower`. -/
def pyLower (l : List Char) : List Char :=
  l.map Char.toLower

/-! ## Index entries and index-line parsing (`src/main.py` lines 13-49) -/

/-- One line of the index: chunk start offset, page id, article title
(`IndexEntry` in the source). -/
structure IndexEntry where
  file_offset : Int
  page_id : Int
  article_name : List Char
deriving DecidableEq

/-- `split_index_parts` from the source: split a line at the first `':'`,
returning the part before it and the part after it. With no `':'` present,
Python's `find` returns `-1`, so the first component is the line minus its
final character and the second is the whole line. -/
def split_index_parts (line : List Char) : List Char × List Char :=
  let e := pyFind line ':'
  (pySlice line 0 e, pySliceFrom line (e + 1))

/-- `parse_index_line` from the source: split twice at the first `':'`,
convert the first two fields with `int()`, and drop the final character of
the remaining field (the expected trailing newline). `none` models the
`ValueError` propagated from `int()`. -/
def parse_index_line (line : List Char) : Option IndexEntry :=
  let p1 := split_index_parts line
  let p2 := split_index_parts p1.2
  match pyInt p1.1, pyInt p2.1 with
  | some o, some i => some ⟨o, i, pySlice p2.2 0 (-1)⟩
  | _, _ => none

/-- `exact_match_smart_predicate` from the source: case-insensitive title
comparison when the query equals its own lower-casing, case-sensitive
equality otherwise. -/
def exact_match_smart_predicate (text : List Char) : IndexEntry → Bool :=
  if text = pyLower text then
    fun entry => pyLower text == pyLower entry.article_name
  else
    fun entry => text == entry.article_name

/-! ## Offset map (`WikiDb.__load_offset_map`, `src/main.py` lines 89-117) -/

/-- Python dictionary assignment `m[k] = v` on an association list:
overwrite the existing binding of `k` in place, or append a new one. -/
def dictInsert : List (Int × Int) → Int → Int → List (Int × Int)
  | [], k, v => [(k, v)]
  | p :: rest, k, v => if p.1 = k then (k, v) :: rest else p :: dictInsert rest k v

/-- Python dictionary lookup `m[k]`; `none` models the `KeyError`. -/
def dictLookup : List (Int × Int) → Int → Option Int
  | [], _ => none
  | p :: rest, k => if p.1 = k then some p.2 else dictLookup rest k

/-- The loop of `WikiDb.__load_offset_map` over the per-line offsets:
`previous` starts at `-1`; the first offset replaces the `-1` sentinel;
whenever the current offset differs from `previous`, record
`offset_map[previous] = current` and advance `previous`. Returns the final
`previous` together with the accumulated map. -/
def loopGo : List Int → Int → List (Int × Int) → Int × List (Int × Int)
  | [], prev, m => (prev, m)
  | o :: rest, prev, m =>
    let prev1 := if prev = -1 then o else prev
    if o ≠ prev1 then loopGo rest o (dictInsert m prev1 o) else loopGo rest prev1 m

/-- `WikiDb.__load_offset_map` from the source, taking the already-parsed
start offset of each index line (the source computes each one as
`int(split_index_parts(line)[0])`) and the archive's total byte size:
run the loop from the sentinel `previous = -1`, then record
`offset_map[previous] = wiki_size`. -/
def load_offset_map (offsets : List Int) (wiki_size : Int) : List (Int × Int) :=
  let r := loopGo offsets (-1) []
  dictInsert r.2 r.1 wiki_size

/-- The per-line offsets fed to `load_offset_map`: for each index line,
`int(split_index_parts(line)[0])`; a line whose offset field fails `int()`
aborts the whole construction (`ValueError`), modelled as `none`. -/
def index_line_offsets : List (List Char) → Option (List Int)
  | [] => some []
  | line :: rest =>
    match pyInt (split_index_parts line).1, index_line_offsets rest with
    | some o, some os => some (o :: os)
    | _, _ => none

/-! ## Index search (`WikiDb.load_index`, `src/main.py` lines 119-133) -/

/-- `WikiDb.load_index` from the source: scan the index lines in order,
parse each one, and collect the entries satisfying the predicate. A parse
failure (`ValueError` from `int()`) aborts the whole scan, modelled as
`none`. -/
def load_index : List (List Char) → (IndexEntry → Bool) → Option (List IndexEntry)
  | [], _ => some []
  | line :: rest, pred =>
    match parse_index_line line with
    | none => none
    | some entry =>
      match load_index rest pred with
      | none => none
      | some entries => some (if pred entry then entry :: entries else entries)

/-- Decoding of the full index line sequence, written from the spec's
words for comparison with `load_index`: parse every line in file order;
fail if any line fails. -/
def decodeAll : List (List Char) → Option (List IndexEntry)
  | [] => some []
  | line :: rest =>
    match parse_index_line line, decodeAll rest with
    | some e, some es => some (e :: es)
    | _, _ => none

/-! ## Chunk loading (`WikiDb.__load_chunk` / `WikiDb.load_article`,
`src/main.py` lines 147-172) -/

/-- The failure modes of the chunk-loading path, one per exception the
source can raise there: `KeyError` from `offset_map[begin]`, `ValueError`
from a negative `seek`, a bz2/UTF-8 failure while decompressing, an XML
parse failure in `ET.fromstring`, `ValueError` from `int(page.find('id')
.text)`, and `StopIteration` from `next(filter(...))` when no record
matches. -/
inductive LoadError where
  | unknownChunkOffset
  | negativeSeek
  | corruptChunk
  | malformedXml
  | malformedRecordId
  | articleNotFoundInChunk
deriving DecidableEq

/-- One `<page>` record of a decompressed chunk, at the granularity the
source reads it: the text content of its `<id>` element and the text
content of its `<revision>/<text>` element (the raw markup body). -/
structure Page where
  id_text : List Char
  revision_text : List Char
deriving DecidableEq

/-- Modelled from the spec: the external markup-parsing collaborator
(`mwparserfromhell`, not part of this repository) accepts raw markup text
and returns a parsed node structure; the model records only the source
text the structure was parsed from. -/
structure Wikicode where
  sourceText : List Char
deriving DecidableEq

/-- Modelled from the spec: `mwparserfromhell.parse` on raw markup text. -/
def mwp_parse (s : List Char) : Wikicode :=
  ⟨s⟩

/-- A dynamically-typed Python value at `load_article`'s return site:
either a raw markup string or a parsed `Wikicode` object. The source
always returns the latter; the spec's contract speaks of the former. -/
inductive MarkupResult where
  | raw (s : List Char)
  | parsed (w : Wikicode)
deriving DecidableEq

/-- `WikiDb.__load_chunk` from the source, with the bz2 decompressor and
UTF-8 decoder (external code) passed in as `decompress`: look up the end
offset (`KeyError` when absent), seek to the start offset (`ValueError`
when negative), read `end - begin` bytes — Python's `read` returns fewer
when fewer remain, and reads the whole rest of the file when the size is
negative — and decompress them. -/
def load_chunk (decompress : List Nat → Option (List Char)) (archive : List Nat)
    (offset_map : List (Int × Int)) (entry : IndexEntry) : Except LoadError (List Char) :=
  match dictLookup offset_map entry.file_offset with
  | none => Except.error LoadError.unknownChunkOffset
  | some e =>
    let chunk_size := e - entry.file_offset
    if entry.file_offset < 0 then Except.error LoadError.negativeSeek
    else
      let data :=
        if chunk_size < 0 then archive.drop entry.file_offset.toNat
        else (archive.drop entry.file_offset.toNat).take chunk_size.toNat
      match decompress data with
      | none => Except.error LoadError.corruptChunk
      | some text => Except.ok text

/-- The scan `next(filter(is_match, root))` of `WikiDb.load_article`:
find the first page whose `<id>` text `int()`-parses to the requested id;
`int()` failing on an earlier page's id raises `ValueError`, and running
out of pages raises `StopIteration`. -/
def findMatch (pid : Int) : List Page → Except LoadError Page
  | [] => Except.error LoadError.articleNotFoundInChunk
  | p :: rest =>
    match pyInt p.id_text with
    | none => Except.error LoadError.malformedRecordId
    | some i => if i = pid then Except.ok p else findMatch pid rest

/-- `WikiDb.load_article` from the source, with the external XML parser
passed in as `parseChunk` (it models `ET.fromstring('<root>' + chunk +
'</root>')` followed by iterating the root's children and reading each
page's fields; `none` models `ET.ParseError`): load the chunk, parse it
into pages, locate the record with the entry's page id, and return its
revision text parsed by `mwp.parse`. -/
def load_article (decompress : List Nat → Option (List Char))
    (parseChunk : List Char → Option (List Page)) (archive : List Nat)
    (offset_map : List (Int × Int)) (entry : IndexEntry) : Except LoadError MarkupResult :=
  match load_chunk decompress archive offset_map entry with
  | Except.error err => Except.error err
  | Except.ok chunk =>
    match parseChunk chunk with
    | none => Except.error LoadError.malformedXml
    | some pages =>
      match findMatch entry.page_id pages with
      | Except.error err => Except.error err
      | Except.ok page => Except.ok (MarkupResult.parsed (mwp_parse page.revision_text))

/-! ## Claims about index search and the smart-exact predicate -/

/-- C4: for every predicate and every index content, including an empty
index, `load_index` returns exactly the sequence obtained by decoding
every index line in file order and filtering it by the predicate; an
empty index gives an empty result. -/
theorem claim_C4 : ∀ (pred : IndexEntry → Bool) (lines : List (List Char)),
    load_index lines pred = (decodeAll lines).map (fun es => es.filter pred)
    ∧ load_index [] pred = some [] := by
  intro pred lines
  refine ⟨?_, rfl⟩
  induction lines with
  | nil => rfl
  | cons line rest ih =>
    simp only [load_index, decodeAll]
    cases hp : parse_index_line line with
    | none => rfl
    | some e =>
      rw [ih]
      cases hd : decodeAll rest with
      | none => rfl
      | some es => simp [List.filter_cons]

/-- C5: the smart-exact predicate compares lower-cased strings exactly
when the query equals its own lower-casing, and compares case-sensitively
otherwise; in particular the predicate built from "c++" matches titles
"C++" and "c++", while the predicate built from "C++" matches "C++" and
not "c++". -/
theorem claim_C5 : ∀ (q : List Char) (e : IndexEntry),
    (exact_match_smart_predicate q e = true ↔
      if q = pyLower q then pyLower q = pyLower e.article_name else q = e.article_name)
    ∧ exact_match_smart_predicate ['c', '+', '+'] ⟨0, 0, ['C', '+', '+']⟩ = true
    ∧ exact_match_smart_predicate ['c', '+', '+'] ⟨0, 0, ['c', '+', '+']⟩ = true
    ∧ exact_match_smart_predicate ['C', '+', '+'] ⟨0, 0, ['C', '+', '+']⟩ = true
    ∧ exact_match_smart_predicate ['C', '+', '+'] ⟨0, 0, ['c', '+', '+']⟩ = false := by
  intro q e
  refine ⟨?_, by decide, by decide, by decide, by decide⟩
  by_cases h : q = pyLower q
  · simp only [exact_match_smart_predicate]
    rw [if_pos h, if_pos h]
    simp [beq_iff_eq]
  · simp only [exact_match_smart_predicate]
    rw [if_neg h, if_neg h]
    simp [beq_iff_eq]

/-! ## Lemmas on Python string primitives -/

lemma charIndex_append (a b : List Char) (c : Char) (h : c ∉ a) :
    charIndex (a ++ c :: b) c = some a.length := by
  induction a with
  | nil => simp [charIndex]
  | cons x a2 ih =>
    have hx : x ≠ c := fun hh => h (hh ▸ List.mem_cons_self x a2)
    simp [charIndex, hx, ih (fun hm => h (List.mem_cons_of_mem _ hm))]

lemma pyNorm_zero (n : Nat) : pyNorm n 0 = 0 := by
  unfold pyNorm
  rw [if_neg (by omega : ¬ (0 : Int) < 0)]
  simp

lemma pyNorm_coe_of_le (n k : Nat) (h : k ≤ n) : pyNorm n (k : Int) = k := by
  unfold pyNorm
  rw [if_neg (by omega : ¬ ((k : Nat) : Int) < 0)]
  have h2 : (((k : Nat) : Int)).toNat = k := by omega
  rw [h2, min_eq_left h]

lemma pyNorm_negOne (n : Nat) : pyNorm n (-1) = n - 1 := by
  unfold pyNorm
  rw [if_pos (by omega : (-1 : Int) < 0)]
  have h2 : ((-1 : Int) + (n : Nat)).toNat = n - 1 := by omega
  rw [h2, min_eq_left (Nat.sub_le n 1)]

lemma pySlice_prefix (a b : List Char) :
    pySlice (a ++ b) 0 (a.length : Int) = a := by
  unfold pySlice
  rw [pyNorm_zero, pyNorm_coe_of_le _ _ (by simp), List.drop_zero, List.take_left]

lemma pySliceFrom_suffix (a b : List Char) :
    pySliceFrom (a ++ b) (a.length : Int) = b := by
  unfold pySliceFrom
  rw [pyNorm_coe_of_le _ _ (by simp), List.drop_left]

lemma pySlice_zero_negOne (l : List Char) :
    pySlice l 0 (-1) = l.dropLast := by
  unfold pySlice
  rw [pyNorm_zero, pyNorm_negOne, List.drop_zero, ← List.dropLast_eq_take]

lemma split_index_parts_concat (a b : List Char) (h : ':' ∉ a) :
    split_index_parts (a ++ ':' :: b) = (a, b) := by
  have hf : pyFind (a ++ ':' :: b) ':' = (a.length : Int) := by
    unfold pyFind
    rw [charIndex_append a b ':' h]
  have h1 : pySlice (a ++ ':' :: b) 0 (a.length : Int) = a := pySlice_prefix a (':' :: b)
  have h2 : pySliceFrom (a ++ ':' :: b) ((a.length : Int) + 1) = b := by
    have hb : a ++ ':' :: b = (a ++ [':']) ++ b := by simp
    have hl : ((a.length : Int) + 1) = (((a ++ [':']).length : Nat) : Int) := by simp
    rw [hb, hl]
    exact pySliceFrom_suffix (a ++ [':']) b
  simp only [split_index_parts, hf]
  rw [h1, h2]

/-! ## Lemmas on Python `int()` over digit strings -/

lemma isPySpace_eq_false_of_isDigit {c : Char} (h : c.isDigit = true) :
    isPySpace c = false := by
  rcases hs : isPySpace c
  · rfl
  · exfalso
    simp only [isPySpace, Bool.or_eq_true, beq_iff_eq] at hs
    rcases hs with ((((rfl | rfl) | rfl) | rfl) | rfl) | rfl <;>
      exact absurd h (by decide)

lemma not_plus_of_isDigit {c : Char} (h : c.isDigit = true) : c ≠ '+' := by
  intro heq
  rw [heq] at h
  exact absurd h (by decide)

lemma not_minus_of_isDigit {c : Char} (h : c.isDigit = true) : c ≠ '-' := by
  intro heq
  rw [heq] at h
  exact absurd h (by decide)

lemma not_und_of_isDigit {c : Char} (h : c.isDigit = true) : c ≠ '_' := by
  intro heq
  rw [heq] at h
  exact absurd h (by decide)

lemma not_colon_of_isDigit {c : Char} (h : c.isDigit = true) : c ≠ ':' := by
  intro heq
  rw [heq] at h
  exact absurd h (by decide)

lemma dropWhile_of_all_false (p : Char → Bool) (l : List Char)
    (h : ∀ c ∈ l, p c = false) : l.dropWhile p = l := by
  cases l with
  | nil => rfl
  | cons x t => simp [List.dropWhile_cons, h x (List.mem_cons_self x t)]

lemma stripPyWS_of_digits (l : List Char) (h : ∀ c ∈ l, c.isDigit = true) :
    stripPyWS l = l := by
  have hall : ∀ c ∈ l, isPySpace c = false :=
    fun c hc => isPySpace_eq_false_of_isDigit (h c hc)
  unfold stripPyWS
  rw [dropWhile_of_all_false _ _ hall,
    dropWhile_of_all_false _ _ (fun c hc => hall c (List.mem_reverse.mp hc)),
    List.reverse_reverse]

lemma noDoubleUnd_of_no_und : ∀ l : List Char, (∀ c ∈ l, c ≠ '_') →
    noDoubleUnd l = true := by
  intro l
  induction l with
  | nil => intro _; rfl
  | cons c t ih =>
    intro h
    cases t with
    | nil => rfl
    | cons c2 r =>
      have hc : (c == '_') = false := by
        simpa using h c (List.mem_cons_self c _)
      simp [noDoubleUnd, hc, ih (fun x hx => h x (List.mem_cons_of_mem _ hx))]

lemma headIsDigit_reverse (l : List Char) (h1 : l ≠ [])
    (h2 : ∀ c ∈ l, c.isDigit = true) : headIsDigit l.reverse = true := by
  cases hr : l.reverse with
  | nil => exact absurd (List.reverse_eq_nil_iff.mp hr) h1
  | cons y r =>
    have hy : y ∈ l := List.mem_reverse.mp (hr ▸ List.mem_cons_self y r)
    simpa [headIsDigit] using h2 y hy

lemma validDigitsUnd_of_digits (l : List Char) (h1 : l ≠ [])
    (h2 : ∀ c ∈ l, c.isDigit = true) : validDigitsUnd l = true := by
  have e3 : headIsDigit l.reverse = true := headIsDigit_reverse _ h1 h2
  obtain ⟨x, t, rfl⟩ := List.exists_cons_of_ne_nil h1
  have e2 : headIsDigit (x :: t) = true := by
    simpa [headIsDigit] using h2 x (List.mem_cons_self x t)
  have e4 : (x :: t).all (fun c => c.isDigit || c == '_') = true :=
    List.all_eq_true.mpr (fun c hc => by simp [h2 c hc])
  have e5 : noDoubleUnd (x :: t) = true :=
    noDoubleUnd_of_no_und _ (fun c hc => not_und_of_isDigit (h2 c hc))
  simp only [validDigitsUnd, e2, e3, e4, e5, Bool.and_true, Bool.true_and,
    List.isEmpty_cons, Bool.not_false]

lemma pyInt_of_digits (l : List Char) (h1 : l ≠ []) (h2 : ∀ c ∈ l, c.isDigit = true) :
    pyInt l = some (digitsVal l : Int) := by
  unfold pyInt
  rw [stripPyWS_of_digits l h2]
  obtain ⟨x, t, rfl⟩ := List.exists_cons_of_ne_nil h1
  have hx := h2 x (List.mem_cons_self x t)
  simp only [pyIntCore]
  rw [if_neg (not_plus_of_isDigit hx), if_neg (not_minus_of_isDigit hx),
    if_pos (validDigitsUnd_of_digits _ h1 h2)]

/-! ## Lemmas on parsing a well-formed index line -/

lemma parse_index_line_concat (dO dI T : List Char)
    (h1 : dO ≠ []) (h2 : ∀ c ∈ dO, c.isDigit = true)
    (h3 : dI ≠ []) (h4 : ∀ c ∈ dI, c.isDigit = true) :
    parse_index_line (dO ++ ':' :: (dI ++ ':' :: T))
      = some ⟨(digitsVal dO : Int), (digitsVal dI : Int), T.dropLast⟩ := by
  have hcO : ':' ∉ dO := fun hm => absurd rfl (not_colon_of_isDigit (h2 ':' hm))
  have hcI : ':' ∉ dI := fun hm => absurd rfl (not_colon_of_isDigit (h4 ':' hm))
  simp only [parse_index_line, split_index_parts_concat dO (dI ++ ':' :: T) hcO,
    split_index_parts_concat dI T hcI]
  rw [pyInt_of_digits dO h1 h2, pyInt_of_digits dI h3 h4, pySlice_zero_negOne]

/-! ## Claims about parsing well-formed index lines -/

/-- C3: for every well-formed line `OFFSET:ID:TITLE` followed by a
trailing newline, where OFFSET and ID are base-10 digit strings and TITLE
is arbitrary text possibly containing `':'`, parsing splits only on the
first separator twice in sequence and returns the entry with the numeric
OFFSET, the numeric ID, and exactly TITLE with its interior separators
intact and the trailing terminator stripped. -/
theorem claim_C3 (dO dI T : List Char)
    (h1 : dO ≠ []) (h2 : ∀ c ∈ dO, c.isDigit = true)
    (h3 : dI ≠ []) (h4 : ∀ c ∈ dI, c.isDigit = true) :
    parse_index_line (dO ++ ':' :: (dI ++ ':' :: (T ++ ['\n'])))
      = some ⟨(digitsVal dO : Int), (digitsVal dI : Int), T⟩ := by
  rw [parse_index_line_concat dO dI (T ++ ['\n']) h1 h2 h3 h4, List.dropLast_concat]

/-- C3 witness: the line "1:2:A:B\n" parses to offset 1, id 2, and title
"A:B" with its interior separator intact. -/
theorem claim_C3_witness :
    parse_index_line (['1'] ++ ':' :: (['2'] ++ ':' :: (['A', ':', 'B'] ++ ['\n'])))
      = some ⟨1, 2, ['A', ':', 'B']⟩ := by
  rw [claim_C3 ['1'] ['2'] ['A', ':', 'B'] (by decide) (by decide) (by decide) (by decide)]
  decide

/-- C10: parsing removes exactly the final character of the third field
unconditionally, without checking that it is a line terminator; in
particular a well-formed line lacking a trailing newline yields an entry
whose title misses its last character. -/
theorem claim_C10 :
    (∀ (line : List Char) (e : IndexEntry), parse_index_line line = some e →
        e.article_name = ((split_index_parts (split_index_parts line).2).2).dropLast)
    ∧ ∀ (dO dI T : List Char), dO ≠ [] → (∀ c ∈ dO, c.isDigit = true) →
        dI ≠ [] → (∀ c ∈ dI, c.isDigit = true) →
        parse_index_line (dO ++ ':' :: (dI ++ ':' :: T))
          = some ⟨(digitsVal dO : Int), (digitsVal dI : Int), T.dropLast⟩ := by
  constructor
  · intro line e h
    simp only [parse_index_line] at h
    cases h1 : pyInt (split_index_parts line).1 with
    | none => rw [h1] at h; simp at h
    | some o =>
      cases h2 : pyInt (split_index_parts (split_index_parts line).2).1 with
      | none => rw [h1, h2] at h; simp at h
      | some i =>
        rw [h1, h2] at h
        simp only [Option.some.injEq] at h
        subst h
        exact pySlice_zero_negOne _
  · intro dO dI T h1 h2 h3 h4
    exact parse_index_line_concat dO dI T h1 h2 h3 h4

/-- C10 witness: the newline-less line "1:2:AB" parses to an entry whose
title is "A" — the final character "B" was stripped even though it is not
a line terminator — and that title is the third field minus its last
character. -/
theorem claim_C10_witness :
    parse_index_line (['1'] ++ ':' :: (['2'] ++ ':' :: ['A', 'B'])) = some ⟨1, 2, ['A']⟩
    ∧ (⟨1, 2, ['A']⟩ : IndexEntry).article_name
        = ((split_index_parts (split_index_parts
            (['1'] ++ ':' :: (['2'] ++ ':' :: ['A', 'B']))).2).2).dropLast := by
  constructor
  · rw [claim_C10.2 ['1'] ['2'] ['A', 'B'] (by decide) (by decide) (by decide) (by decide)]
    decide
  · exact claim_C10.1 (['1'] ++ ':' :: (['2'] ++ ':' :: ['A', 'B'])) ⟨1, 2, ['A']⟩ (by decide)

/-! ## Claims about index-line parse failures -/

/-- C8 counterexample: the line "123\n" contains fewer than two separator
characters, yet `parse_index_line` succeeds on it (Python's `find`
returns `-1` and the slices then yield the numeric fields "123" twice),
so a line with fewer than two separators does not fail. -/
theorem claim_C8_counterexample :
    List.count ':' ['1', '2', '3', '\n'] < 2
    ∧ parse_index_line ['1', '2', '3', '\n'] = some ⟨123, 123, ['1', '2', '3']⟩ := by
  decide

/-- C8 amended: parsing an index line fails exactly when the OFFSET field
or the ID field produced by the two successive first-separator splits
(with Python's `find`/slicing semantics when a separator is missing) is
not parseable as an integer; the separator count by itself decides
nothing. -/
theorem claim_C8_amended : ∀ line : List Char,
    parse_index_line line = none ↔
      (pyInt (split_index_parts line).1 = none
        ∨ pyInt (split_index_parts (split_index_parts line).2).1 = none) := by
  intro line
  simp only [parse_index_line]
  cases h1 : pyInt (split_index_parts line).1 <;>
    cases h2 : pyInt (split_index_parts (split_index_parts line).2).1 <;>
      simp [h1, h2]

/-! ## Claims about the offset map on an empty index -/

/-- C9 counterexample: on an index with zero lines the built offset map is
not empty — the `previous = -1` sentinel is never replaced and the final
assignment records `offset_map[-1] = archive size`. -/
theorem claim_C9_counterexample :
    load_offset_map [] 80 = [(-1, 80)] ∧ load_offset_map [] 80 ≠ [] := by
  decide

/-- C9 amended: for an index with zero lines the built offset map has the
single entry sending the sentinel `-1` to the archive's total size,
whatever that size is. -/
theorem claim_C9_amended : ∀ S : Int, load_offset_map [] S = [(-1, S)] := by
  intro S
  rfl

/-! ## Lemmas on the record scan of `load_article` -/

lemma findMatch_ok_of_mem (pid : Int) :
    ∀ pages : List Page, (∀ p ∈ pages, (pyInt p.id_text).isSome = true) →
      (∃ p ∈ pages, pyInt p.id_text = some pid) →
      ∃ page ∈ pages, pyInt page.id_text = some pid ∧ findMatch pid pages = Except.ok page := by
  intro pages
  induction pages with
  | nil =>
    intro _ hex
    rcases hex with ⟨p, hp, _⟩
    exact absurd hp (List.not_mem_nil p)
  | cons q rest ih =>
    intro hall hex
    rcases hq : pyInt q.id_text with _ | i
    · exact absurd (hall q (List.mem_cons_self q rest)) (by simp [hq])
    · by_cases hi : i = pid
      · refine ⟨q, List.mem_cons_self q rest, by rw [hq, hi], ?_⟩
        simp [findMatch, hq, hi]
      · have hex2 : ∃ p ∈ rest, pyInt p.id_text = some pid := by
          rcases hex with ⟨p, hp, hpid⟩
          rcases List.mem_cons.mp hp with rfl | hp2
          · rw [hq] at hpid
            exact absurd (Option.some.inj hpid) hi
          · exact ⟨p, hp2, hpid⟩
        rcases ih (fun p hp => hall p (List.mem_cons_of_mem _ hp)) hex2 with
          ⟨page, hmem, hpid, hfm⟩
        refine ⟨page, List.mem_cons_of_mem _ hmem, hpid, ?_⟩
        simp [findMatch, hq, hi, hfm]

lemma findMatch_notFound (pid : Int) :
    ∀ pages : List Page, (∀ p ∈ pages, ∃ n, pyInt p.id_text = some n ∧ n ≠ pid) →
      findMatch pid pages = Except.error LoadError.articleNotFoundInChunk := by
  intro pages
  induction pages with
  | nil => intro _; rfl
  | cons q rest ih =>
    intro h
    rcases h q (List.mem_cons_self q rest) with ⟨n, hn, hne⟩
    simp [findMatch, hn, hne, ih (fun p hp => h p (List.mem_cons_of_mem _ hp))]

/-! ## Concrete fixtures for the chunk-loading claims -/

/-- A concrete raw markup body. -/
def bodyA : List Char := ['B', 'o', 'd', 'y']

/-- A concrete page record with id text "7". -/
def pageA : Page := ⟨['7'], bodyA⟩

/-- A one-record chunk content. -/
def pagesA : List Page := [pageA]

/-- A decompressor that always succeeds (returning an empty text). -/
def decompressA : List Nat → Option (List Char) := fun _ => some []

/-- An XML-parse stage that always yields the one-record chunk `pagesA`. -/
def parseChunkA : List Char → Option (List Page) := fun _ => some pagesA

/-- A chunk content whose only record has id text "8". -/
def pagesB : List Page := [⟨['8'], bodyA⟩]

/-- An XML-parse stage that always yields `pagesB`. -/
def parseChunkB : List Char → Option (List Page) := fun _ => some pagesB

/-- A concrete index entry with chunk offset 0 and page id 7. -/
def entryA : IndexEntry := ⟨0, 7, []⟩

/-- A concrete four-byte archive. -/
def archiveA : List Nat := [10, 20, 30, 40]

/-- An offset map sending offset 0 to end offset 4. -/
def mapA : List (Int × Int) := [(0, 4)]

/-- A one-byte archive, shorter than the chunk size `mapC` demands. -/
def archiveC : List Nat := [10]

/-- An offset map sending offset 0 to end offset 5. -/
def mapC : List (Int × Int) := [(0, 5)]

/-! ## Claims about `load_article` -/

/-- C1 counterexample: in a scenario where the entry's chunk offset is a
key of the offset map and its article id matches a record of the
decompressed chunk, `load_article` returns the record's body wrapped in
the parsed structure produced by `mwp.parse`, not the raw markup body
itself. -/
theorem claim_C1_counterexample :
    load_article decompressA parseChunkA archiveA mapA entryA
      = Except.ok (MarkupResult.parsed (mwp_parse bodyA))
    ∧ load_article decompressA parseChunkA archiveA mapA entryA
      ≠ Except.ok (MarkupResult.raw bodyA) := by
  constructor
  · rfl
  · intro h
    rw [show load_article decompressA parseChunkA archiveA mapA entryA
        = Except.ok (MarkupResult.parsed (mwp_parse bodyA)) from rfl] at h
    exact MarkupResult.noConfusion (Except.ok.inj h)

/-- C1 amended: whenever the chunk loads, parses into records each with a
parseable id, and some record's id equals the entry's article id,
`load_article` locates the first such record and returns its raw markup
body passed through the markup parser (`mwp.parse`), rather than the raw
body unparsed. -/
theorem claim_C1_amended (decompress : List Nat → Option (List Char))
    (parseChunk : List Char → Option (List Page)) (archive : List Nat)
    (offset_map : List (Int × Int)) (entry : IndexEntry) (text : List Char) (pages : List Page)
    (hchunk : load_chunk decompress archive offset_map entry = Except.ok text)
    (hparse : parseChunk text = some pages)
    (hall : ∀ p ∈ pages, (pyInt p.id_text).isSome = true)
    (hex : ∃ p ∈ pages, pyInt p.id_text = some entry.page_id) :
    ∃ page ∈ pages, pyInt page.id_text = some entry.page_id
      ∧ load_article decompress parseChunk archive offset_map entry
          = Except.ok (MarkupResult.parsed (mwp_parse page.revision_text)) := by
  rcases findMatch_ok_of_mem entry.page_id pages hall hex with ⟨page, hmem, hpid, hfm⟩
  refine ⟨page, hmem, hpid, ?_⟩
  simp [load_article, hchunk, hparse, hfm]

/-- C1 witness: the amended claim instantiated at the concrete fixture. -/
theorem claim_C1_witness :
    ∃ page ∈ pagesA, pyInt page.id_text = some entryA.page_id
      ∧ load_article decompressA parseChunkA archiveA mapA entryA
          = Except.ok (MarkupResult.parsed (mwp_parse page.revision_text)) :=
  claim_C1_amended decompressA parseChunkA archiveA mapA entryA [] pagesA rfl rfl
    (by decide) ⟨pageA, by decide, by decide⟩

/-- C6: `load_article` fails with the unknown-chunk-offset error when the
entry's offset is not a key of the offset map, and fails with the
article-not-found error when the chunk loads and parses into records
whose ids all parse and all differ from the entry's article id. -/
theorem claim_C6 (decompress : List Nat → Option (List Char))
    (parseChunk : List Char → Option (List Page)) (archive : List Nat)
    (offset_map : List (Int × Int)) (entry : IndexEntry) :
    (dictLookup offset_map entry.file_offset = none →
      load_article decompress parseChunk archive offset_map entry
        = Except.error LoadError.unknownChunkOffset)
    ∧ ∀ (text : List Char) (pages : List Page),
        load_chunk decompress archive offset_map entry = Except.ok text →
        parseChunk text = some pages →
        (∀ p ∈ pages, ∃ n, pyInt p.id_text = some n ∧ n ≠ entry.page_id) →
        load_article decompress parseChunk archive offset_map entry
          = Except.error LoadError.articleNotFoundInChunk := by
  constructor
  · intro h
    simp [load_article, load_chunk, h]
  · intro text pages hchunk hparse hall
    simp [load_article, hchunk, hparse, findMatch_notFound entry.page_id pages hall]

/-- C6 witness: both failure modes at concrete fixtures — offset 99 is
not a key of the map; and a chunk whose only record has id 8 does not
contain the requested id 7. -/
theorem claim_C6_witness :
    load_article decompressA parseChunkA archiveA mapA ⟨99, 7, []⟩
      = Except.error LoadError.unknownChunkOffset
    ∧ load_article decompressA parseChunkB archiveA mapA entryA
      = Except.error LoadError.articleNotFoundInChunk := by
  constructor
  · exact (claim_C6 decompressA parseChunkA archiveA mapA ⟨99, 7, []⟩).1 rfl
  · refine (claim_C6 decompressA parseChunkB archiveA mapA entryA).2 [] pagesB rfl rfl ?_
    intro p hp
    simp only [pagesB, List.mem_singleton] at hp
    subst hp
    exact ⟨8, by decide, by decide⟩

/-- C7 counterexample: the entry's chunk offset maps to end offset 5
(size 5) but the archive holds only one byte there; `load_article` does
not fail — it succeeds on the shorter read, so no truncated-archive
failure exists. -/
theorem claim_C7_counterexample :
    (archiveC.length : Int) < 5 - (0 : Int)
    ∧ dictLookup mapC 0 = some 5
    ∧ load_article decompressA parseChunkA archiveC mapC entryA
      = Except.ok (MarkupResult.parsed (mwp_parse bodyA)) := by
  exact ⟨by decide, rfl, rfl⟩

/-- C7 amended: for an entry whose chunk offset maps to end offset `e`,
the read requests `e - offset` bytes but receives
`min (e - offset) (available)` bytes, and `load_chunk` succeeds whenever
the decompressor succeeds on those bytes — there is no failure on a
short read. -/
theorem claim_C7_amended (decompress : List Nat → Option (List Char)) (archive : List Nat)
    (offset_map : List (Int × Int)) (entry : IndexEntry) (e : Int)
    (hlook : dictLookup offset_map entry.file_offset = some e)
    (h0 : 0 ≤ entry.file_offset) (hle : entry.file_offset ≤ e) :
    ((archive.drop entry.file_offset.toNat).take (e - entry.file_offset).toNat).length
        = min (e - entry.file_offset).toNat (archive.length - entry.file_offset.toNat)
    ∧ ∀ text : List Char,
        decompress ((archive.drop entry.file_offset.toNat).take (e - entry.file_offset).toNat)
          = some text →
        load_chunk decompress archive offset_map entry = Except.ok text := by
  constructor
  · simp [List.length_take, List.length_drop]
  · intro text htext
    have hnn : ¬ entry.file_offset < 0 := by omega
    have hsz : ¬ e < entry.file_offset := by omega
    simp [load_chunk, hlook, hnn, hsz, htext]

/-- C7 witness: the amended claim instantiated at the concrete fixture. -/
theorem claim_C7_witness :
    ((archiveA.drop entryA.file_offset.toNat).take ((4 : Int) - entryA.file_offset).toNat).length
        = min ((4 : Int) - entryA.file_offset).toNat (archiveA.length - entryA.file_offset.toNat)
    ∧ load_chunk decompressA archiveA mapA entryA = Except.ok [] := by
  constructor
  · exact (claim_C7_amended decompressA archiveA mapA entryA 4 rfl (by decide) (by decide)).1
  · exact (claim_C7_amended decompressA archiveA mapA entryA 4 rfl (by decide) (by decide)).2
      [] rfl

/-! ## Lemmas on the offset-map construction -/

lemma dictInsert_append (m : List (Int × Int)) (k v : Int) (h : ∀ p ∈ m, p.1 ≠ k) :
    dictInsert m k v = m ++ [(k, v)] := by
  induction m with
  | nil => rfl
  | cons q rest ih =>
    have hq : q.1 ≠ k := h q (List.mem_cons_self q rest)
    simp [dictInsert, hq, ih (fun p hp => h p (List.mem_cons_of_mem _ hp))]

lemma dictLookup_append_right (m m2 : List (Int × Int)) (k : Int)
    (h : ∀ p ∈ m, p.1 ≠ k) : dictLookup (m ++ m2) k = dictLookup m2 k := by
  induction m with
  | nil => rfl
  | cons q rest ih =>
    have hq : q.1 ≠ k := h q (List.mem_cons_self q rest)
    simp [dictLookup, hq, ih (fun p hp => h p (List.mem_cons_of_mem _ hp))]

lemma loopGo_skip (k : Nat) (o : Int) (rest : List Int) (m : List (Int × Int))
    (ho : o ≠ -1) : loopGo (List.replicate k o ++ rest) o m = loopGo rest o m := by
  induction k with
  | zero => simp
  | succ n ih =>
    rw [List.replicate_succ, List.cons_append]
    simp only [loopGo, if_neg ho]
    rw [if_neg (fun h : o ≠ o => h rfl)]
    exact ih

lemma loopGo_enter (k : Nat) (o prev : Int) (rest : List Int) (m : List (Int × Int))
    (hprev : prev ≠ -1) (hne : o ≠ prev) (ho : o ≠ -1) :
    loopGo (List.replicate (k + 1) o ++ rest) prev m = loopGo rest o (dictInsert m prev o) := by
  rw [List.replicate_succ, List.cons_append]
  simp only [loopGo]
  rw [if_neg hprev, if_pos hne]
  exact loopGo_skip k o rest _ ho

lemma loopGo_start (k : Nat) (o : Int) (rest : List Int) (m : List (Int × Int))
    (ho : o ≠ -1) : loopGo (List.replicate (k + 1) o ++ rest) (-1) m = loopGo rest o m := by
  rw [List.replicate_succ, List.cons_append]
  simp [loopGo]
  exact loopGo_skip k o rest m ho

/-- The association list `[(o0, o1), (o1, o2), ..., (o(n-1), on)]` of
consecutive distinct offsets, written from the spec's words to compare
with what the source's loop accumulates. -/
def edges : Int → List Int → List (Int × Int)
  | _, [] => []
  | prev, o :: rest => (prev, o) :: edges o rest

lemma chain_le_getLastD (a : Int) (l : List Int)
    (h : List.Chain' (· < ·) (a :: l)) : a ≤ l.getLastD a := by
  induction l generalizing a with
  | nil => simp
  | cons b t ih =>
    rw [List.getLastD_cons]
    have h1 := (List.chain'_cons.mp h).1
    have h2 := ih b (List.chain'_cons.mp h).2
    omega

lemma chain_lt_of_mem (l : List Int) (x a : Int)
    (h : List.Chain' (· < ·) (x :: l)) (ha : a ∈ l) : x < a := by
  induction l generalizing x with
  | nil => exact absurd ha (List.not_mem_nil a)
  | cons b t ih =>
    have h1 := (List.chain'_cons.mp h).1
    rcases List.mem_cons.mp ha with rfl | ha2
    · exact h1
    · exact lt_trans h1 (ih b (List.chain'_cons.mp h).2 ha2)

lemma edges_key_lt (os : List Int) (prev : Int)
    (h : List.Chain' (· < ·) (prev :: os)) :
    ∀ p ∈ edges prev os, p.1 < os.getLastD prev := by
  induction os generalizing prev with
  | nil => intro p hp; exact absurd hp (List.not_mem_nil p)
  | cons o rest ih =>
    intro p hp
    rw [List.getLastD_cons]
    have h1 := (List.chain'_cons.mp h).1
    have h2 := (List.chain'_cons.mp h).2
    simp only [edges] at hp
    rcases List.mem_cons.mp hp with rfl | hp2
    · exact lt_of_lt_of_le h1 (chain_le_getLastD o rest h2)
    · exact ih o h2 p hp2

lemma loopGo_groups :
    ∀ (os : List Int) (ks : List Nat) (prev : Int) (m : List (Int × Int)),
      0 ≤ prev → List.Chain' (· < ·) (prev :: os) → os.length = ks.length →
      (∀ k ∈ ks, k ≠ 0) → (∀ p ∈ m, p.1 < prev) →
      loopGo (List.zipWith List.replicate ks os).flatten prev m
        = (os.getLastD prev, m ++ edges prev os) := by
  intro os
  induction os with
  | nil =>
    intro ks prev m _ _ hlen _ _
    cases ks with
    | nil => simp [loopGo, edges]
    | cons k ks2 => simp at hlen
  | cons o os2 ih =>
    intro ks prev m h0 hch hlen hks hkeys
    cases ks with
    | nil => simp at hlen
    | cons k ks2 =>
      obtain ⟨k2, rfl⟩ : ∃ k2, k = k2 + 1 := by
        rcases Nat.exists_eq_succ_of_ne_zero (hks k (List.mem_cons_self k ks2)) with ⟨n, hn⟩
        exact ⟨n, hn⟩
      have h1 := (List.chain'_cons.mp hch).1
      have h2 := (List.chain'_cons.mp hch).2
      have hflat : (List.zipWith List.replicate ((k2 + 1) :: ks2) (o :: os2)).flatten
          = List.replicate (k2 + 1) o ++ (List.zipWith List.replicate ks2 os2).flatten := by
        simp
      have hrec := ih ks2 o (m ++ [(prev, o)]) (by omega) h2 (by simpa using hlen)
        (fun kk hkk => hks kk (List.mem_cons_of_mem _ hkk))
        (fun p hp => by
          rcases List.mem_append.mp hp with hp1 | hp2
          · have := hkeys p hp1
            omega
          · have hpo : p = (prev, o) := by simpa using hp2
            rw [hpo]
            exact h1)
      rw [hflat, loopGo_enter k2 o prev _ m (by omega) (by omega) (by omega),
        dictInsert_append m prev o (fun p hp => by have := hkeys p hp; omega), hrec,
        List.getLastD_cons]
      simp [edges, List.append_assoc]

lemma load_offset_map_explicit (o0 : Int) (os2 : List Int) (k0 : Nat) (ks2 : List Nat)
    (S : Int) (h0 : 0 ≤ o0) (hch : List.Chain' (· < ·) (o0 :: os2))
    (hlen : os2.length = ks2.length) (hks : ∀ k ∈ ks2, k ≠ 0) :
    load_offset_map (List.zipWith List.replicate ((k0 + 1) :: ks2) (o0 :: os2)).flatten S
      = edges o0 os2 ++ [(os2.getLastD o0, S)] := by
  have hflat : (List.zipWith List.replicate ((k0 + 1) :: ks2) (o0 :: os2)).flatten
      = List.replicate (k0 + 1) o0 ++ (List.zipWith List.replicate ks2 os2).flatten := by
    simp
  have hgo : loopGo (List.zipWith List.replicate ((k0 + 1) :: ks2) (o0 :: os2)).flatten (-1) []
      = (os2.getLastD o0, edges o0 os2) := by
    rw [hflat, loopGo_start k0 o0 _ [] (by omega)]
    simpa using loopGo_groups os2 ks2 o0 [] h0 hch hlen hks
      (by intro p hp; exact absurd hp (List.not_mem_nil p))
  simp only [load_offset_map]
  rw [hgo]
  exact dictInsert_append (edges o0 os2) (os2.getLastD o0) S
    (fun p hp => ne_of_lt (edges_key_lt os2 o0 hch p hp))

lemma dictLookup_edges_adj :
    ∀ (os : List Int) (prev : Int) (suffix : List (Int × Int)) (i : Nat) (a b : Int),
      List.Chain' (· < ·) (prev :: os) →
      (prev :: os).get? i = some a → (prev :: os).get? (i + 1) = some b →
      dictLookup (edges prev os ++ suffix) a = some b := by
  intro os
  induction os with
  | nil =>
    intro prev suffix i a b _ _ h2
    rcases i with _ | j <;> simp at h2
  | cons o rest ih =>
    intro prev suffix i a b hch h1 h2
    have hc2 := (List.chain'_cons.mp hch).2
    cases i with
    | zero =>
      simp only [List.get?_cons_zero, Option.some.injEq] at h1
      simp only [List.get?_cons_succ, List.get?_cons_zero, Option.some.injEq] at h2
      subst h1
      subst h2
      simp [edges, dictLookup]
    | succ j =>
      simp only [List.get?_cons_succ] at h1 h2
      have ha : a ∈ o :: rest := List.get?_mem h1
      have hne : prev ≠ a := ne_of_lt (chain_lt_of_mem _ prev a hch ha)
      simp only [edges, List.cons_append, dictLookup]
      rw [if_neg hne]
      exact ih o suffix j a b hc2 h1 h2

lemma getLast?_cons_getLastD (o : Int) (l : List Int) :
    (o :: l).getLast? = some (l.getLastD o) := by
  induction l generalizing o with
  | nil => rfl
  | cons b t ih => rw [List.getLast?_cons_cons, ih b, List.getLastD_cons]

/-! ## Claim about the offset map on a populated index -/

/-- C2: for an index whose sequence of start offsets consists of the
distinct values `o0 < o1 < ... < on` (each non-negative, each repeated on
one or more consecutive lines) and an archive of total size S, the built
offset map sends each distinct offset to the next one and the last
distinct offset to S, regardless of the repetition counts. -/
theorem claim_C2 (os : List Int) (ks : List Nat) (S : Int)
    (hne : os ≠ []) (hch : List.Chain' (· < ·) os) (hpos : ∀ o ∈ os, 0 ≤ o)
    (hlen : os.length = ks.length) (hks : ∀ k ∈ ks, k ≠ 0) :
    (∀ (i : Nat) (a b : Int), os.get? i = some a → os.get? (i + 1) = some b →
        dictLookup (load_offset_map (List.zipWith List.replicate ks os).flatten S) a
          = some b)
    ∧ ∀ a : Int, os.getLast? = some a →
        dictLookup (load_offset_map (List.zipWith List.replicate ks os).flatten S) a
          = some S := by
  obtain ⟨o0, os2, rfl⟩ := List.exists_cons_of_ne_nil hne
  cases ks with
  | nil => simp at hlen
  | cons k0 ks2 =>
    obtain ⟨k2, rfl⟩ : ∃ k2, k0 = k2 + 1 := by
      rcases Nat.exists_eq_succ_of_ne_zero (hks k0 (List.mem_cons_self k0 ks2)) with ⟨n, hn⟩
      exact ⟨n, hn⟩
    have h0 : 0 ≤ o0 := hpos o0 (List.mem_cons_self o0 os2)
    have hlen2 : os2.length = ks2.length := by simpa using hlen
    have hks2 : ∀ k ∈ ks2, k ≠ 0 := fun k hk => hks k (List.mem_cons_of_mem _ hk)
    have hmap := load_offset_map_explicit o0 os2 k2 ks2 S h0 hch hlen2 hks2
    constructor
    · intro i a b h1 h2
      rw [hmap]
      exact dictLookup_edges_adj os2 o0 [(os2.getLastD o0, S)] i a b hch h1 h2
    · intro a ha
      rw [hmap]
      rw [getLast?_cons_getLastD] at ha
      simp only [Option.some.injEq] at ha
      subst ha
      rw [dictLookup_append_right _ _ _
        (fun p hp => ne_of_lt (edges_key_lt os2 o0 hch p hp))]
      simp [dictLookup]

/-- C2 witness: the spec's concrete scenario — offsets 0, 0, 50 and
archive size 80 give a map sending 0 to 50 and 50 to 80. -/
theorem claim_C2_witness :
    dictLookup (load_offset_map (List.zipWith List.replicate [2, 1] [(0 : Int), 50]).flatten 80)
      0 = some 50
    ∧ dictLookup (load_offset_map (List.zipWith List.replicate [2, 1] [(0 : Int), 50]).flatten 80)
      50 = some 80 := by
  have h := claim_C2 [(0 : Int), 50] [2, 1] 80 (by decide) (by norm_num [List.chain'_cons])
    (by decide) (by decide) (by decide)
  exact ⟨h.1 0 0 50 rfl rfl, h.2 50 rfl⟩

end PyWiki
